import Mathlib

/-!
Verification development for the mathematicon corpus-search backend.

Each definition below is a shallow embedding of one function of the
repository, translated directly from its Python source.  The theorems
settle the specification claims about those functions.
-/

set_option maxRecDepth 4000

namespace Mathematicon

/-! ## Pattern matcher

Embedding of `SearchService.find_pattern_in_target`
(`src/mathematicon/backend/services/search_service.py`, lines 20-51).

The Python scans `target` left to right with a pattern pointer `p`, a
skip counter `skips`, the list `matches` (here `results`) of closed matches and the
in-progress match `match_` (here `current`).  `pattern[p]` raises
`IndexError` when `p` is out of range (only possible for an empty
pattern); the embedding models that exception with `Except.error`.
-/

/-- Decidable equality for `Except`, used to evaluate the embedded
functions at concrete inputs. -/
instance {ε α : Type} [DecidableEq ε] [DecidableEq α] : DecidableEq (Except ε α) := fun a b => by
  cases a <;> cases b
  case error.error x y => exact decidable_of_iff (x = y) (by simp)
  case error.ok x y => exact .isFalse (by simp)
  case ok.error x y => exact .isFalse (by simp)
  case ok.ok x y => exact decidable_of_iff (x = y) (by simp)

structure MatchState where
  p : Nat
  skips : Nat
  results : List (List Nat)
  current : List Nat
deriving Repr, DecidableEq

/-- One iteration of the `for i in range(len(target))` loop of
`find_pattern_in_target`, at loop index `i` with target element `x`. -/
def matchStep (pattern : List String) (maxSkips : Nat) (s : MatchState)
    (i : Nat) (x : String) : Except String MatchState :=
  match pattern[s.p]? with
  | none => .error "IndexError"
  | some pe =>
    if pe = x then -- elements matched
      if s.skips ≤ maxSkips then
        if s.p = pattern.length - 1 then -- full match
          .ok ⟨0, 0, s.results ++ [s.current ++ [i]], []⟩
        else -- partial match
          .ok ⟨s.p + 1, s.skips, s.results, s.current ++ [i]⟩
      else -- too many skips: start new match
        .ok ⟨0, 0, s.results, []⟩
    else -- non matching elements
      if s.current ≠ [] then .ok ⟨s.p, s.skips + 1, s.results, s.current⟩
      else .ok s

/-- The loop of `find_pattern_in_target`, run from state `s` on the
remaining target elements, the next one having loop index `i`. -/
def runFrom (pattern : List String) (maxSkips : Nat) (s : MatchState)
    (i : Nat) : List String → Except String MatchState
  | [] => .ok s
  | x :: rest =>
    match matchStep pattern maxSkips s i x with
    | .error e => .error e
    | .ok s' => runFrom pattern maxSkips s' (i + 1) rest

/-- `SearchService.find_pattern_in_target(pattern, target, max_skips)`:
returns `matches` if non-empty, `None` (here `none`) otherwise. -/
def find_pattern_in_target (pattern target : List String) (maxSkips : Nat) :
    Except String (Option (List (List Nat))) :=
  match runFrom pattern maxSkips ⟨0, 0, [], []⟩ 0 target with
  | .error e => .error e
  | .ok s => .ok (if s.results ≠ [] then some s.results else none)

/-- State of the matcher loop after consuming the first `n` target
elements (`runFrom` on `target.take n` from the initial state). -/
def runPrefix (pattern target : List String) (maxSkips n : Nat) :
    Except String MatchState :=
  runFrom pattern maxSkips ⟨0, 0, [], []⟩ 0 (target.take n)

example : find_pattern_in_target ["b"] ["a", "b", "b"] 0
    = .ok (some [[1], [2]]) := by decide

/-- Splitting the matcher loop over an append of target segments. -/
theorem runFrom_append (pattern : List String) (maxSkips : Nat) (l₁ l₂ : List String) :
    ∀ (s : MatchState) (i : Nat),
      runFrom pattern maxSkips s i (l₁ ++ l₂) =
        match runFrom pattern maxSkips s i l₁ with
        | .error e => .error e
        | .ok s₂ => runFrom pattern maxSkips s₂ (i + l₁.length) l₂ := by
  induction l₁ with
  | nil => intro s i; simp [runFrom]
  | cons x rest ih =>
    intro s i
    simp only [List.cons_append, runFrom]
    cases h : matchStep pattern maxSkips s i x with
    | error e => rfl
    | ok s₂ =>
      show runFrom pattern maxSkips s₂ (i + 1) (rest ++ l₂) = _
      rw [ih s₂ (i + 1)]
      have hlen : i + 1 + rest.length = i + (x :: rest).length := by
        simp [List.length_cons]; omega
      rw [hlen]

/-- Loop invariant of `find_pattern_in_target` after `n` consumed target
elements: the pattern cursor equals the in-progress match length and stays
in range, closed matches are non-empty, all recorded indices are sorted,
below `n`, and the skip counter counts exactly the elements consumed since
the first element of the in-progress match that did not extend it. -/
def MatchInv (pattern : List String) (n : Nat) (s : MatchState) : Prop :=
  s.p = s.current.length ∧
  s.p < pattern.length ∧
  (∀ l ∈ s.results, l ≠ []) ∧
  List.Sorted (· < ·) (s.results.flatten ++ s.current) ∧
  (∀ a ∈ s.results.flatten ++ s.current, a < n) ∧
  (s.current = [] → s.skips = 0) ∧
  (∀ i₁ t, s.current = i₁ :: t → s.skips + s.current.length + i₁ = n)

theorem sorted_append_singleton {l : List Nat} {n : Nat}
    (hs : List.Sorted (· < ·) l) (hb : ∀ a ∈ l, a < n) :
    List.Sorted (· < ·) (l ++ [n]) :=
  List.pairwise_append.mpr ⟨hs, List.pairwise_singleton _ _,
    fun a ha b hbmem => by
      have : b = n := by simpa using hbmem
      subst this; exact hb a ha⟩

theorem matchStep_inv (pattern : List String) (maxSkips : Nat) (s : MatchState)
    (n : Nat) (x : String) (hp : pattern ≠ []) (h : MatchInv pattern n s) :
    ∃ s₂, matchStep pattern maxSkips s n x = .ok s₂ ∧ MatchInv pattern (n + 1) s₂ := by
  obtain ⟨hpc, hplt, hne, hsort, hbound, hsk0, hskeq⟩ := h
  have hlen0 : 0 < pattern.length := List.length_pos.mpr hp
  have hget : pattern[s.p]? = some pattern[s.p] := List.getElem?_eq_getElem hplt
  simp only [matchStep, hget]
  by_cases h1 : pattern[s.p] = x
  · by_cases h2 : s.skips ≤ maxSkips
    · by_cases h3 : s.p = pattern.length - 1
      · -- full match closes
        refine ⟨_, by rw [if_pos h1, if_pos h2, if_pos h3], ?_⟩
        refine ⟨rfl, hlen0, ?_, ?_, ?_, fun _ => rfl, by simp⟩
        · intro l hl
          rcases List.mem_append.mp hl with hl | hl
          · exact hne l hl
          · simp only [List.mem_singleton] at hl
            subst hl; simp
        · simp only [List.flatten_append, List.flatten_cons, List.flatten_nil,
            List.append_nil]
          rw [← List.append_assoc]
          exact sorted_append_singleton hsort hbound
        · intro a ha
          simp only [List.flatten_append, List.flatten_cons, List.flatten_nil,
            List.append_nil, List.append_assoc, List.mem_append,
            List.mem_singleton] at ha
          rcases ha with ha | ha | ha
          · exact Nat.lt_succ_of_lt (hbound a (List.mem_append.mpr (.inl ha)))
          · exact Nat.lt_succ_of_lt (hbound a (List.mem_append.mpr (.inr ha)))
          · subst ha; omega
      · -- partial match advances
        refine ⟨_, by rw [if_pos h1, if_pos h2, if_neg h3], ?_⟩
        refine ⟨by simp [hpc], by show s.p + 1 < pattern.length; omega, hne, ?_, ?_, by simp, ?_⟩
        · rw [← List.append_assoc]
          exact sorted_append_singleton hsort hbound
        · intro a ha
          rw [← List.append_assoc] at ha
          rcases List.mem_append.mp ha with ha | ha
          · exact Nat.lt_succ_of_lt (hbound a ha)
          · simp only [List.mem_singleton] at ha
            subst ha; omega
        · intro i₁ t heq
          cases hc : s.current with
          | nil =>
            rw [hc] at heq
            simp only [List.nil_append, List.cons.injEq] at heq
            obtain ⟨h5, h6⟩ := heq
            have h7 := hsk0 hc
            simp only [hc, List.nil_append, List.length_cons, List.length_nil]
            omega
          | cons c₁ ct =>
            rw [hc] at heq
            simp only [List.cons_append, List.cons.injEq] at heq
            obtain ⟨h5, h6⟩ := heq
            have h7 := hskeq c₁ ct hc
            simp only [hc, List.length_cons, List.length_append,
              List.length_singleton, List.length_nil] at h7 ⊢
            omega
    · -- too many skips: discard and reset
      refine ⟨_, by rw [if_pos h1, if_neg h2], ?_⟩
      refine ⟨rfl, hlen0, hne, ?_, ?_, fun _ => rfl, by simp⟩
      · rw [List.append_nil]
        exact (List.pairwise_append.mp hsort).1
      · intro a ha
        rw [List.append_nil] at ha
        exact Nat.lt_succ_of_lt (hbound a (List.mem_append.mpr (.inl ha)))
  · by_cases h4 : s.current = []
    · -- non matching element, no match in progress
      refine ⟨s, by rw [if_neg h1, if_neg (show ¬s.current ≠ [] by simp [h4])], ?_⟩
      refine ⟨hpc, hplt, hne, hsort, ?_, hsk0, ?_⟩
      · exact fun a ha => Nat.lt_succ_of_lt (hbound a ha)
      · intro i₁ t heq; rw [h4] at heq; exact absurd heq (by simp)
    · -- non matching element, match in progress: one more skip
      refine ⟨_, by rw [if_neg h1, if_pos h4], ?_⟩
      refine ⟨hpc, hplt, hne, hsort, ?_, by simp [h4], ?_⟩
      · exact fun a ha => Nat.lt_succ_of_lt (hbound a ha)
      · intro i₁ t heq
        have := hskeq i₁ t heq
        simp only at this ⊢
        omega

theorem runFrom_inv (pattern : List String) (maxSkips : Nat) (hp : pattern ≠ []) :
    ∀ (l : List String) (s : MatchState) (n : Nat), MatchInv pattern n s →
      ∃ s₂, runFrom pattern maxSkips s n l = .ok s₂ ∧
        MatchInv pattern (n + l.length) s₂ := by
  intro l
  induction l with
  | nil => intro s n h; exact ⟨s, rfl, by simpa using h⟩
  | cons x rest ih =>
    intro s n h
    obtain ⟨s₂, hstep, hinv⟩ := matchStep_inv pattern maxSkips s n x hp h
    obtain ⟨s₃, hrun, hinv₃⟩ := ih s₂ (n + 1) hinv
    refine ⟨s₃, ?_, ?_⟩
    · simp only [runFrom, hstep, hrun]
    · have : n + 1 + rest.length = n + (x :: rest).length := by simp; omega
      rwa [this] at hinv₃

theorem initInv (pattern : List String) (hp : pattern ≠ []) :
    MatchInv pattern 0 ⟨0, 0, [], []⟩ := by
  refine ⟨rfl, List.length_pos.mpr hp, by simp, by simp, by simp, fun _ => rfl, by simp⟩

theorem runPrefix_ok (pattern target : List String) (maxSkips n : Nat)
    (hp : pattern ≠ []) (hn : n ≤ target.length) :
    ∃ s, runPrefix pattern target maxSkips n = .ok s ∧ MatchInv pattern n s := by
  obtain ⟨s, hs, hinv⟩ :=
    runFrom_inv pattern maxSkips hp (target.take n) ⟨0, 0, [], []⟩ 0 (initInv pattern hp)
  refine ⟨s, hs, ?_⟩
  have hlen : (target.take n).length = n := by rw [List.length_take]; omega
  rwa [Nat.zero_add, hlen] at hinv

theorem sorted_flatten_parts : ∀ (r : List (List Nat)), List.Sorted (· < ·) r.flatten →
    (∀ l ∈ r, List.Sorted (· < ·) l) ∧
      List.Pairwise (fun l₁ l₂ => ∀ a ∈ l₁, ∀ b ∈ l₂, a < b) r := by
  intro r
  induction r with
  | nil => intro _; exact ⟨by simp, by simp⟩
  | cons hd tl ih =>
    intro hs
    rw [List.flatten_cons] at hs
    obtain ⟨h1, h2, h3⟩ := List.pairwise_append.mp hs
    obtain ⟨ih1, ih2⟩ := ih h2
    refine ⟨?_, ?_⟩
    · intro l hl
      rcases List.mem_cons.mp hl with hl | hl
      · exact hl ▸ h1
      · exact ih1 l hl
    · refine List.Pairwise.cons ?_ ih2
      intro l hl a ha b hb
      exact h3 a ha b (List.mem_flatten.mpr ⟨l, hl, hb⟩)

/-- Claim C4 (amended): when the scan reaches a target element equal to the
current pattern element and the skip counter is within `maxSkips`, the
in-progress match advances, closing as a full match when the cursor is on
the last pattern element; the skip counter is cumulative over the whole
in-progress match: it equals the number of consumed elements since the
first matched element of the current match that did not extend it, with no
reset at intermediate matched elements. -/
theorem find_pattern_skip_budget (pattern target : List String) (maxSkips n : Nat)
    (s : MatchState) (hp : pattern ≠ [])
    (hs : runPrefix pattern target maxSkips n = .ok s)
    (x : String) (hx : target[n]? = some x)
    (hpx : pattern[s.p]? = some x) (hskips : s.skips ≤ maxSkips) :
    (∀ i₁ t, s.current = i₁ :: t → s.skips + s.current.length + i₁ = n) ∧
    runPrefix pattern target maxSkips (n + 1) =
      .ok (if s.p = pattern.length - 1
        then ⟨0, 0, s.results ++ [s.current ++ [n]], []⟩
        else ⟨s.p + 1, s.skips, s.results, s.current ++ [n]⟩) := by
  have hn : n < target.length := (List.getElem?_eq_some.mp hx).1
  obtain ⟨s₀, hs₀, hinv⟩ := runPrefix_ok pattern target maxSkips n hp (le_of_lt hn)
  have hse : s₀ = s := by
    apply Except.ok.inj
    rw [← hs, ← hs₀]
  subst hse
  constructor
  · exact hinv.2.2.2.2.2.2
  · have htake : target.take (n + 1) = target.take n ++ [x] := by
      rw [List.take_succ, hx]; rfl
    unfold runPrefix at hs ⊢
    rw [htake, runFrom_append, hs]
    dsimp only
    have hlen : (target.take n).length = n := by rw [List.length_take]; omega
    rw [hlen, Nat.zero_add]
    simp only [runFrom, matchStep, hpx]
    by_cases h3 : s₀.p = pattern.length - 1
    · simp only [if_true, if_pos hskips, if_pos h3]
    · simp only [if_true, if_pos hskips, if_neg h3]

/-- Claim C4 witness: on pattern a,b (target a,x,b, one skip allowed), the
state after two consumed elements has an in-progress match with one skip,
and consuming the matching third element closes the full match 0,2. -/
theorem find_pattern_skip_budget_witness :
    runPrefix ["a", "b"] ["a", "x", "b"] 1 3 = .ok ⟨0, 0, [[0, 2]], []⟩ := by
  have h := find_pattern_skip_budget ["a", "b"] ["a", "x", "b"] 1 2 ⟨1, 1, [], [0]⟩
    (by decide) (by decide) "b" (by decide) (by decide) (by decide)
  simpa using h.2

/-- Claim C4 counterexample: the pattern a,b,c occurs in the target at
indices 0, 2, 4 with exactly one intervening non-matching element in each
gap, which is within `maxSkips = 1` per gap, yet the matcher reports no
match at all: the skip budget is not per gap. -/
theorem find_pattern_per_gap_budget_fails :
    (["a", "x", "b", "y", "c"] : List String)[0]? = some "a" ∧
    (["a", "x", "b", "y", "c"] : List String)[2]? = some "b" ∧
    (["a", "x", "b", "y", "c"] : List String)[4]? = some "c" ∧
    2 - 0 - 1 ≤ 1 ∧ 4 - 2 - 1 ≤ 1 ∧
    find_pattern_in_target ["a", "b", "c"] ["a", "x", "b", "y", "c"] 1 = .ok none := by
  decide

/-- Claim C5 (amended): when the skip counter exceeds `maxSkips` at a match
point, the matcher discards the in-progress match and resets the cursor and
skip counter, but the triggering element itself is consumed without
beginning a new match (the new in-progress match is empty even when the
element equals the first pattern element); matching can restart only at a
later element. -/
theorem find_pattern_overflow_discards (pattern target : List String) (maxSkips n : Nat)
    (s : MatchState) (hp : pattern ≠ [])
    (hs : runPrefix pattern target maxSkips n = .ok s)
    (x : String) (hx : target[n]? = some x)
    (hpx : pattern[s.p]? = some x) (hskips : maxSkips < s.skips) :
    runPrefix pattern target maxSkips (n + 1) = .ok ⟨0, 0, s.results, []⟩ := by
  have hn : n < target.length := (List.getElem?_eq_some.mp hx).1
  have htake : target.take (n + 1) = target.take n ++ [x] := by
    rw [List.take_succ, hx]; rfl
  unfold runPrefix at hs ⊢
  rw [htake, runFrom_append, hs]
  dsimp only
  have hlen : (target.take n).length = n := by rw [List.length_take]; omega
  rw [hlen, Nat.zero_add]
  simp only [runFrom, matchStep, hpx]
  simp only [if_true, if_neg (Nat.not_le.mpr hskips)]

/-- Claim C5 witness: on pattern a,a with no skips allowed, after the
state 0 consumed a,x,x the skip counter is 2; the matching element at
index 3 is consumed with a full reset and no new in-progress match. -/
theorem find_pattern_overflow_discards_witness :
    runPrefix ["a", "a"] ["a", "x", "x", "a", "a"] 0 4 = .ok ⟨0, 0, [], []⟩ :=
  find_pattern_overflow_discards ["a", "a"] ["a", "x", "x", "a", "a"] 0 3 ⟨1, 2, [], [0]⟩
    (by decide) (by decide) "a" (by decide) (by decide) (by decide)

/-- Claim C5 counterexample: at index 3 the skip counter (2) exceeds
`maxSkips = 0` on a matching element that equals the first pattern element;
the claim would have a new match begin there, making 3,4 a reported full
match, but the matcher returns no match at all. -/
theorem find_pattern_no_restart_at_element :
    runPrefix ["a", "a"] ["a", "x", "x", "a", "a"] 0 3 = .ok ⟨1, 2, [], [0]⟩ ∧
    (["a", "a"] : List String)[0]? = some "a" ∧
    (["a", "x", "x", "a", "a"] : List String)[3]? = some "a" ∧
    (["a", "x", "x", "a", "a"] : List String)[4]? = some "a" ∧
    (0 : Nat) < 2 ∧
    find_pattern_in_target ["a", "a"] ["a", "x", "x", "a", "a"] 0 = .ok none := by
  decide

/-- Claim C7: a non-absent matcher result is a non-empty list of non-empty
index lists, each strictly increasing, and pairwise in strictly increasing
non-overlapping order across the whole result; a run with no full match
yields `none`, never an empty list. -/
theorem find_pattern_result_wellformed (pattern target : List String) (maxSkips : Nat)
    (r : List (List Nat)) (hp : pattern ≠ [])
    (h : find_pattern_in_target pattern target maxSkips = .ok (some r)) :
    r ≠ [] ∧ (∀ l ∈ r, l ≠ []) ∧ (∀ l ∈ r, List.Sorted (· < ·) l) ∧
      List.Pairwise (fun l₁ l₂ => ∀ a ∈ l₁, ∀ b ∈ l₂, a < b) r := by
  obtain ⟨s, hrun, hinv⟩ :=
    runFrom_inv pattern maxSkips hp target ⟨0, 0, [], []⟩ 0 (initInv pattern hp)
  unfold find_pattern_in_target at h
  rw [hrun] at h
  dsimp only at h
  by_cases hres : s.results ≠ []
  · rw [if_pos hres] at h
    have hr : s.results = r := by
      have := (Except.ok.injEq _ _).mp h
      exact (Option.some.injEq _ _).mp this
    obtain ⟨-, -, hne, hsort, -, -, -⟩ := hinv
    have hsf : List.Sorted (· < ·) r.flatten := by
      rw [← hr]
      exact (List.pairwise_append.mp hsort).1
    obtain ⟨hparts₁, hparts₂⟩ := sorted_flatten_parts r hsf
    exact ⟨hr ▸ hres, hr ▸ hne, hparts₁, hparts₂⟩
  · rw [if_neg hres] at h
    simp at h

/-- Claim C7 witness: a concrete two-match run producing the well-formed
result 0 and 1 as two singleton matches. -/
theorem find_pattern_result_wellformed_witness :
    ([[0], [1]] : List (List Nat)) ≠ [] ∧
    (∀ l ∈ ([[0], [1]] : List (List Nat)), l ≠ []) ∧
    (∀ l ∈ ([[0], [1]] : List (List Nat)), List.Sorted (· < ·) l) ∧
    List.Pairwise (fun l₁ l₂ => ∀ a ∈ l₁, ∀ b ∈ l₂, a < b) ([[0], [1]] : List (List Nat)) :=
  find_pattern_result_wellformed ["a"] ["a", "a"] 0 [[0], [1]] (by decide) (by decide)

/-- Sanity checks: the testable properties of the specification. -/
example : find_pattern_in_target ["три"]
    ["модуль", "числа", "минус", "три", "равен", "три"] 0 = .ok (some [[3], [5]]) := by
  rfl

example : find_pattern_in_target ["два", "три"]
    ["два", "три", "мочь", "принимать", "значение", "ноль", ",", "один", ",", "два", "и", "три"]
    1 = .ok (some [[0, 1], [9, 11]]) := by rfl

example : find_pattern_in_target ["два", "три"]
    ["два", "три", "мочь", "принимать", "значение", "ноль", ",", "один", ",", "два", "и", "три"]
    0 = .ok (some [[0, 1]]) := by rfl

/-! ## Tokens and HTML output pieces

`Token` embeds the fields of `model.Token`
(`src/mathematicon/backend/model.py`, lines 16-26) that the search
service reads; the database ids, morphology string and sentence position
are never consulted by the embedded functions and are omitted.

`HTMLPiece` is the sum of the two Python classes the token generator
yields: `HTMLSpan(text)` (constructor `plain`) and
`HTMLWord(text, pos, lemma, char_start_, char_end_, color)` (constructor
`word`).  Note the committed `html_models.HTMLWord` dataclass actually
lacks the `char_start_`/`char_end_` keywords that
`SearchService._html_tokens_generator` passes; the embedding models the
constructor as called at that site.

`QueryTok` embeds a query token of `QueryInfo.tokens` (an `HTMLWord`
produced by `SearchService._create_query_info`) with the fields the
colorizer can surface. -/

structure Token where
  token_text : String
  whitespace : Bool
  pos_tag : String
  lemma_ : String -- Python field name `lemma` (a Lean keyword)
  char_offset_start : Nat
  char_offset_end : Nat
deriving Repr, DecidableEq

inductive HTMLPiece where
  | plain (text : String)
  | word (text pos lem : String) (charStart charEnd : Nat) (color : String)
deriving Repr, DecidableEq

/-- The `text` attribute of an emitted piece. -/
def HTMLPiece.textOf : HTMLPiece → String
  | .plain t => t
  | .word t _ _ _ _ _ => t

structure QueryTok where
  text : String
  pos : String
  lemma_ : String -- Python field name `lemma` (a Lean keyword)
  color : String
deriving Repr, DecidableEq

/-! ## Highlight renderer

Embedding of `SearchService._html_tokens_generator`
(`src/mathematicon/backend/services/search_service.py`, lines 65-92).
The Python iterates `zip(tokens, colors)` keeping a mutable plain-text
buffer (`plain_token`); a non-punctuation token first flushes a non-empty
buffer as a plain span, then yields a word span, and the token's trailing
whitespace is appended to the buffer in all cases.  The generator returns
after the loop without yielding the remaining buffer. -/

def htmlTokensGo : String → List (Token × String) → List HTMLPiece
  | _, [] => [] -- generator ends here; the pending buffer is NOT yielded
  | buf, (t, c) :: rest =>
    if t.pos_tag ≠ "PUNCT" then
      (if buf ≠ "" then [.plain buf] else []) ++
        [.word t.token_text t.pos_tag t.lemma_ t.char_offset_start t.char_offset_end c] ++
        htmlTokensGo (if t.whitespace then " " else "") rest
    else
      htmlTokensGo (buf ++ t.token_text ++ (if t.whitespace then " " else "")) rest

/-- `SearchService._html_tokens_generator(tokens, colors)`, collected into
a list. -/
def html_tokens_generator (tokens : List Token) (colors : List String) : List HTMLPiece :=
  htmlTokensGo "" (tokens.zip colors)

/-- Concatenation of the texts of emitted spans. -/
def spansText (pieces : List HTMLPiece) : String :=
  pieces.foldl (fun acc p => acc ++ p.textOf) ""

/-- Concatenation of all token texts, each followed by its trailing
whitespace. -/
def tokensText (tokens : List Token) : String :=
  tokens.foldl (fun acc t => acc ++ t.token_text ++ (if t.whitespace then " " else "")) ""

/-- The second scenario of the repository test
`test__html_tokens_generator`: the sentence consisting of Семь, на, три
and a final full stop. -/
def demoTokens : List Token :=
  [⟨"Семь", true, "NUM", "семь", 0, 4⟩,
   ⟨"на", true, "ADP", "на", 5, 7⟩,
   ⟨"три", false, "NUM", "три", 8, 11⟩,
   ⟨".", false, "PUNCT", ".", 11, 12⟩]

def demoColors : List String := ["black", "black", "green", "black"]

/-- Claim C3 fails on the code: on the repository's own test input the
generator emits no final plain span for the trailing full stop (the
pending buffer is dropped when the loop ends), so the concatenated span
texts lose the final character.  The repository test expects the final
plain span containing the full stop. -/
theorem html_tokens_generator_drops_final_plain :
    html_tokens_generator demoTokens demoColors =
      [.word "Семь" "NUM" "семь" 0 4 "black", .plain " ",
       .word "на" "ADP" "на" 5 7 "black", .plain " ",
       .word "три" "NUM" "три" 8 11 "green"] ∧
    spansText (html_tokens_generator demoTokens demoColors) = "Семь на три" ∧
    tokensText demoTokens = "Семь на три." ∧
    spansText (html_tokens_generator demoTokens demoColors) ≠ tokensText demoTokens := by
  refine ⟨rfl, rfl, rfl, ?_⟩
  decide

theorem zip_take_left {α β : Type} : ∀ (l₁ : List α) (l₂ : List β),
    l₁.zip l₂ = (l₁.take l₂.length).zip l₂ := by
  intro l₁
  induction l₁ with
  | nil => intro l₂; simp
  | cons x rest ih =>
    intro l₂
    cases l₂ with
    | nil => simp
    | cons y rest₂ => simp [List.zip_cons_cons, ih rest₂]

/-- Claim C10: the renderer silently truncates to the colors when the
color list is shorter than the token list: tokens beyond the last color
produce no output at all, so the result only depends on the first
`colors.length` tokens. -/
theorem html_tokens_generator_truncates (tokens : List Token) (colors : List String) :
    html_tokens_generator tokens colors =
      html_tokens_generator (tokens.take colors.length) colors := by
  unfold html_tokens_generator
  rw [zip_take_left tokens colors]

/-! ## Token colorizer

Embedding of `SearchService._color_tokens`
(`src/mathematicon/backend/services/search_service.py`, lines 109-127).
The Python walks `enumerate(tokens)` with a match-group pointer `mp` and a
within-group pointer `qp`; when the position equals `matches[mp][qp]` it
appends `query_info.tokens[qp]` (the query token object itself, not a
color string) and advances, padding with the string black only after the
last group is exhausted, then breaking.  No entry is appended at
non-matching positions.  Out-of-range subscripts raise `IndexError`,
modelled by `none`. -/

inductive ColorCell where
  | qtoken (w : QueryTok) -- `query_info.tokens[qp]` appended at a match
  | colorName (s : String) -- the string entries (only black is appended)
deriving Repr, DecidableEq

def colorTokensGo (queryToks : List QueryTok) (groups : List (List Nat)) (n : Nat) :
    Nat → Nat → Nat → Nat → List ColorCell → Option (List ColorCell)
  | 0, _, _, _, acc => some acc -- loop over; `rem` counts the remaining iterations
  | rem + 1, i, mp, qp, acc =>
    match groups[mp]? with
    | none => none
    | some g =>
      match g[qp]? with
      | none => none
      | some m =>
        if i = m then
          match queryToks[qp]? with
          | none => none
          | some w =>
            if qp + 1 = g.length then
              if mp + 1 = groups.length then
                some ((acc ++ [ColorCell.qtoken w]) ++
                  List.replicate (n - (i + 1)) (ColorCell.colorName "black"))
              else colorTokensGo queryToks groups n rem (i + 1) (mp + 1) 0
                (acc ++ [ColorCell.qtoken w])
            else colorTokensGo queryToks groups n rem (i + 1) mp (qp + 1)
              (acc ++ [ColorCell.qtoken w])
        else colorTokensGo queryToks groups n rem (i + 1) mp qp acc

/-- `SearchService._color_tokens(tokens, query_info, matches)`. -/
def color_tokens (tokens : List Token) (queryToks : List QueryTok)
    (matches_ : List (List Nat)) : Option (List ColorCell) :=
  colorTokensGo queryToks matches_ tokens.length tokens.length 0 0 0 []

/-- Claim C2 fails on the code: on the repository's own test input
(12 tokens, query два три, matches 0,1 and 9,11) `_color_tokens` returns
only 4 entries, each the query token object rather than its color string,
because no entry is appended at non-matching positions before the last
group is exhausted; the test expects 12 color strings. -/
theorem color_tokens_diverges :
    color_tokens (List.replicate 12 ⟨"w", true, "NOUN", "w", 0, 1⟩)
      [⟨"два", "NUM", "два", "green"⟩, ⟨"три", "NUM", "три", "green"⟩]
      [[0, 1], [9, 11]] =
      some [ColorCell.qtoken ⟨"два", "NUM", "два", "green"⟩,
        ColorCell.qtoken ⟨"три", "NUM", "три", "green"⟩,
        ColorCell.qtoken ⟨"два", "NUM", "два", "green"⟩,
        ColorCell.qtoken ⟨"три", "NUM", "три", "green"⟩] ∧
    (Option.map List.length (color_tokens (List.replicate 12 ⟨"w", true, "NOUN", "w", 0, 1⟩)
      [⟨"два", "NUM", "два", "green"⟩, ⟨"три", "NUM", "три", "green"⟩]
      [[0, 1], [9, 11]])) = some 4 ∧
    (4 : Nat) ≠ 12 := by
  refine ⟨by decide, by decide, by decide⟩

/-! ## Ontology descendant resolution

Embedding of `MathtagSearch.find_tag_descendants`
(`src/mathematicon/backend/models/mathtag_search.py`, lines 13-18).

The ontology rows come from the persistence collaborator
(`db.get_math_ontology()`, a `(parent_id, node_id)` edge list whose first
row is the synthetic root entry); the function drops the first row,
builds `nx.DiGraph(math_ontology[1:])`, and evaluates
`descendants.union(nx.descendants(mathtag_tree, tag_id))` — but
`set.union` returns a new set, and the returned value is discarded, so
only `{tag_id}` is ever returned.

`nxDescendants` models `networkx.descendants`: all nodes reachable from
the source by a non-empty path.  Iterating the one-step successor
closure `edges.length` times reaches a fixpoint on every input. -/

def reachStep (edges : List (Nat × Nat)) (s : Finset Nat) : Finset Nat :=
  s ∪ (edges.filterMap (fun e => if e.1 ∈ s then some e.2 else none)).toFinset

def reachableSet (edges : List (Nat × Nat)) (src : Nat) : Finset Nat :=
  Nat.rec {src} (fun _ acc => reachStep edges acc) edges.length

/-- `networkx.descendants(G, src)`: reachable nodes, the source excluded. -/
def nxDescendants (edges : List (Nat × Nat)) (src : Nat) : Finset Nat :=
  reachableSet edges src \ {src}

/-- `MathtagSearch.find_tag_descendants(tag_id)`: the union with the
computed descendant set is evaluated and discarded (`descendants.union`
is pure and its result is not assigned), so the function returns only
the queried id. -/
def find_tag_descendants (math_ontology : List (Nat × Nat)) (tag_id : Nat) : Finset Nat :=
  let descendants : Finset Nat := {tag_id}
  let mathtag_tree := math_ontology.drop 1
  let _discarded := descendants ∪ nxDescendants mathtag_tree tag_id
  descendants

/-- Claim C1 fails on the code: on the ontology rows root, A to B, B to C
(A=1, B=2, C=3) the reflexive-transitive closure of A is A,B,C and the
code itself computes it, but the result of `descendants.union(...)` is
discarded, so `find_tag_descendants` returns only the queried id.  The
reflexivity part of the claim and descendants(C) = C do hold. -/
theorem find_tag_descendants_not_closure :
    find_tag_descendants [(100, 1), (1, 2), (2, 3)] 1 = {1} ∧
    ({1} ∪ nxDescendants [(1, 2), (2, 3)] 1 : Finset Nat) = {1, 2, 3} ∧
    find_tag_descendants [(100, 1), (1, 2), (2, 3)] 1 ≠ ({1, 2, 3} : Finset Nat) ∧
    find_tag_descendants [(100, 1), (1, 2), (2, 3)] 3 = {3} := by
  refine ⟨rfl, by decide, by decide, rfl⟩

/-! ## Annotation grouping

Embedding of `MathtagSearch.intersect` and
`MathtagSearch.find_intersecting_annotations`
(`src/mathematicon/backend/models/mathtag_search.py`, lines 20-59).

An annotation row exposes, per the external interface,
`(sent_id, entity_id, token CSV, color CSV, char_start, char_end)`; the
grouping reads positions 0, 4 and 5.  For each annotation the Python
scans **all** existing groups, remembering the last group that contains
a member of the same sentence whose offsets intersect inclusively
(`start1 <= end2 and end1 >= start2`); the annotation is appended to
that group, or else opens a new singleton group. -/

structure AnnotRow where
  sent_id : Nat
  entity_id : Nat
  token_csv : String
  color_csv : String
  char_start : Nat
  char_end : Nat
deriving Repr, DecidableEq

/-- `MathtagSearch.intersect(offsets1, offsets2)`. -/
def intersect (offsets1 offsets2 : Nat × Nat) : Bool :=
  decide (offsets1.1 ≤ offsets2.2) && decide (offsets1.2 ≥ offsets2.1)

/-- The group-membership test of the inner loop: same sentence and
inclusively intersecting offsets (`annotation` is the incoming row,
`existing` an already grouped one). -/
def annMatches (a existing : AnnotRow) : Bool :=
  (a.sent_id == existing.sent_id) &&
    intersect (a.char_start, a.char_end) (existing.char_start, existing.char_end)

/-- The group scan of `find_intersecting_annotations`: iterate over the
existing groups and remember the index of the last group containing an
intersecting member (the Python `break` leaves the inner loop only, so a
later matching group overwrites `intersecting_group`). -/
def lastMatchingIdxGo (a : AnnotRow) :
    List (List AnnotRow) → Nat → Option Nat → Option Nat
  | [], _, found => found
  | g :: rest, j, found =>
    lastMatchingIdxGo a rest (j + 1)
      (if g.any (fun b => annMatches a b) then some j else found)

def lastMatchingIdx (a : AnnotRow) (groups : List (List AnnotRow)) : Option Nat :=
  lastMatchingIdxGo a groups 0 none

/-- One iteration of the outer `for annotation in annotations` loop. -/
def groupStep (groups : List (List AnnotRow)) (a : AnnotRow) : List (List AnnotRow) :=
  match lastMatchingIdx a groups with
  | some j => groups.set j (groups.getD j [] ++ [a])
  | none => groups ++ [[a]]

/-- `MathtagSearch.find_intersecting_annotations(annotations)`. -/
def find_intersecting_annotations (rows : List AnnotRow) : List (List AnnotRow) :=
  rows.foldl groupStep []

theorem lastMatchingIdxGo_of_none (a : AnnotRow) :
    ∀ (G : List (List AnnotRow)) (j₀ : Nat) (found : Option Nat),
      (∀ g ∈ G, g.any (fun b => annMatches a b) = false) →
      lastMatchingIdxGo a G j₀ found = found := by
  intro G
  induction G with
  | nil => intro j₀ found _; rfl
  | cons g rest ih =>
    intro j₀ found h
    have hg : g.any (fun b => annMatches a b) = false := h g (by simp)
    simp only [lastMatchingIdxGo, hg, if_neg Bool.false_ne_true]
    exact ih (j₀ + 1) found (fun g₂ hg₂ => h g₂ (by simp [hg₂]))

theorem lastMatchingIdxGo_of_last (a : AnnotRow) :
    ∀ (G : List (List AnnotRow)) (j j₀ : Nat) (found : Option Nat),
      j < G.length →
      (G.getD j []).any (fun b => annMatches a b) = true →
      (∀ k, j < k → k < G.length → (G.getD k []).any (fun b => annMatches a b) = false) →
      lastMatchingIdxGo a G j₀ found = some (j₀ + j) := by
  intro G
  induction G with
  | nil => intro j j₀ found hj _ _; exact absurd hj (by simp)
  | cons g rest ih =>
    intro j j₀ found hj hmatch hlater
    cases j with
    | zero =>
      have hg : g.any (fun b => annMatches a b) = true := by simpa using hmatch
      have hrest : ∀ g₂ ∈ rest, g₂.any (fun b => annMatches a b) = false := by
        intro g₂ hg₂
        obtain ⟨k, hk, hkeq⟩ := List.getElem_of_mem hg₂
        have h := hlater (k + 1) (Nat.succ_pos k) (by simpa using Nat.succ_lt_succ hk)
        rw [List.getD_cons_succ] at h
        rw [← hkeq]
        rwa [List.getD_eq_getElem rest [] hk] at h
      simp only [lastMatchingIdxGo, hg, if_true]
      rw [lastMatchingIdxGo_of_none a rest (j₀ + 1) (some j₀) hrest]
      simp
    | succ j₂ =>
      have hj₂ : j₂ < rest.length := by simpa using hj
      have hmatch₂ : (rest.getD j₂ []).any (fun b => annMatches a b) = true := by
        simpa using hmatch
      have hlater₂ : ∀ k, j₂ < k → k < rest.length →
          (rest.getD k []).any (fun b => annMatches a b) = false := by
        intro k hk₁ hk₂
        have := hlater (k + 1) (by omega) (by simpa using Nat.succ_lt_succ hk₂)
        simpa using this
      simp only [lastMatchingIdxGo]
      rw [ih j₂ (j₀ + 1) _ hj₂ hmatch₂ hlater₂]
      congr 1
      omega

/-- Claim C6 (amended): a following fragment is appended to an existing
group exactly when that group contains some fragment of the same sentence
whose character span intersects the new fragment inclusively
(`new.start <= existing.end` and `new.end >= existing.start`); it is
appended to the last such group in scan order, and otherwise opens a new
singleton group. -/
theorem find_intersecting_step (rows : List AnnotRow) (a : AnnotRow) :
    ((∀ g ∈ find_intersecting_annotations rows, ∀ b ∈ g, annMatches a b = false) →
      find_intersecting_annotations (rows ++ [a]) =
        find_intersecting_annotations rows ++ [[a]]) ∧
    (∀ j, j < (find_intersecting_annotations rows).length →
      (∃ b ∈ (find_intersecting_annotations rows).getD j [], annMatches a b = true) →
      (∀ k, j < k → k < (find_intersecting_annotations rows).length →
        ∀ b ∈ (find_intersecting_annotations rows).getD k [], annMatches a b = false) →
      find_intersecting_annotations (rows ++ [a]) =
        (find_intersecting_annotations rows).set j
          ((find_intersecting_annotations rows).getD j [] ++ [a])) := by
  have hfold : find_intersecting_annotations (rows ++ [a]) =
      groupStep (find_intersecting_annotations rows) a := by
    unfold find_intersecting_annotations
    rw [List.foldl_append]
    rfl
  constructor
  · intro hnone
    rw [hfold]
    unfold groupStep lastMatchingIdx
    rw [lastMatchingIdxGo_of_none a _ 0 none ?_]
    intro g hg
    rw [List.any_eq_false]
    intro b hb
    simp [hnone g hg b hb]
  · intro j hj hex hlater
    rw [hfold]
    unfold groupStep lastMatchingIdx
    rw [lastMatchingIdxGo_of_last a _ j 0 none hj ?_ ?_]
    · simp
    · obtain ⟨b, hb, hbm⟩ := hex
      rw [List.any_eq_true]
      exact ⟨b, hb, by simp [hbm]⟩
    · intro k hk₁ hk₂
      rw [List.any_eq_false]
      intro b hb
      simp [hlater k hk₁ hk₂ b hb]

/-- Claim C6 witness: a fragment overlapping the single existing group of
its sentence is appended to that group. -/
theorem find_intersecting_step_witness :
    find_intersecting_annotations
      [⟨1, 7, "", "", 0, 5⟩, ⟨1, 7, "", "", 3, 8⟩] =
      [[⟨1, 7, "", "", 0, 5⟩, ⟨1, 7, "", "", 3, 8⟩]] := by
  have h := (find_intersecting_step [⟨1, 7, "", "", 0, 5⟩] ⟨1, 7, "", "", 3, 8⟩).2 0
    (by decide) (by decide)
    (by
      have hlen :
          (find_intersecting_annotations [(⟨1, 7, "", "", 0, 5⟩ : AnnotRow)]).length = 1 := by
        decide
      intro k hk₁ hk₂
      rw [hlen] at hk₂
      omega)
  exact h.trans (by decide)

/-- Claim C6 counterexample: two fragments of the same sentence ordered by
start offset, the second starting at or after the end of the first
(start 10, previous end 5).  The claim places the second in the current
group; the code opens a new group, because its test is inclusive span
intersection, not the start-after-end comparison. -/
theorem find_intersecting_adjacent_splits :
    find_intersecting_annotations
      [⟨1, 7, "", "", 0, 5⟩, ⟨1, 7, "", "", 10, 12⟩] =
      [[⟨1, 7, "", "", 0, 5⟩], [⟨1, 7, "", "", 10, 12⟩]] ∧
    (⟨1, 7, "", "", 10, 12⟩ : AnnotRow).sent_id = (⟨1, 7, "", "", 0, 5⟩ : AnnotRow).sent_id ∧
    (⟨1, 7, "", "", 0, 5⟩ : AnnotRow).char_end ≤
      (⟨1, 7, "", "", 10, 12⟩ : AnnotRow).char_start := by
  decide

/-! ## Formula reranking

Embedding of `TFIDFRerankingModel.rank`
(`src/mathematicon/backend/services/formula_search_service.py`,
lines 29-42).

`RankedFormulas` is imported by the service from `model.py` but absent
from it; modelled from the spec: parallel arrays of candidate ids,
formula strings and similarity scores.

Scores are IEEE floats; they are embedded as `RFloat := Option ℚ`, with
`none` modelling NaN and finite values idealized as exact rationals.
Infinities never arise in this function: the only division is the
min-max normalization
`(scores - scores.min()) / (scores.max() - scores.min())`, whose
denominator is zero exactly when every score equals the minimum, which
makes every numerator zero as well, and `0.0/0.0` is NaN.  Arithmetic
involving NaN yields NaN; ordered comparisons involving NaN are false;
`np.argsort` places NaN after every real value in its ascending order
(so the `[::-1]` reversal puts NaN first).  `np.argsort` (an unstable
introsort) is embedded as an insertion sort of the index range by score
with ties broken by index, one order consistent with its guarantee.
The TF-IDF pipeline (`TfidfVectorizer.fit_transform`, `transform` and
the dot product) is the external scikit-learn collaborator, abstracted
as a function `tfidfScores` from the candidate formulas and the query to
the vector of raw lexical cosine scores (real numbers), one per
candidate. -/

/-- An IEEE float value: `none` is NaN, `some q` a finite value. -/
abbrev RFloat := Option ℚ

def fAdd : RFloat → RFloat → RFloat
  | some a, some b => some (a + b)
  | _, _ => none

def fMul : RFloat → RFloat → RFloat
  | some a, some b => some (a * b)
  | _, _ => none

/-- Division, with NaN on a zero denominator.  (IEEE `x/0` with `x ≠ 0`
would be an infinity, but in `rank` a zero denominator forces a zero
numerator, so only `0/0 = NaN` is reachable.) -/
def fDiv : RFloat → RFloat → RFloat
  | some a, some b => if b = 0 then none else some (a / b)
  | _, _ => none

/-- IEEE `>=` on scores: false whenever either operand is NaN. -/
def scoreGe : RFloat → RFloat → Prop
  | some a, some b => b ≤ a
  | _, _ => False

instance : DecidableRel scoreGe := fun a b =>
  match a, b with
  | some qa, some qb => inferInstanceAs (Decidable (qb ≤ qa))
  | some _, none => isFalse id
  | none, some _ => isFalse id
  | none, none => isFalse id

structure RankedFormulas where
  ids : List String
  formulas : List String
  scores : List RFloat
deriving Repr, DecidableEq

/-- `(scores - scores.min()) / (scores.max() - scores.min())`: NaN in
every position when all scores are equal (`0/0`), finite everywhere
otherwise. -/
def minMaxNormalize : List ℚ → List RFloat
  | [] => []
  | x :: xs =>
    let mn := xs.foldl min x
    let mx := xs.foldl max x
    (x :: xs).map (fun v => fDiv (some (v - mn)) (some (mx - mn)))

/-- The comparison used to embed `np.argsort`: ascending by score with
NaN after every real value, ties broken by index. -/
def argsortLe (v : List RFloat) (i j : Nat) : Bool :=
  match v.getD i (some 0), v.getD j (some 0) with
  | some a, some b => decide (a < b) || (decide (a = b) && decide (i ≤ j))
  | some _, none => true
  | none, some _ => false
  | none, none => decide (i ≤ j)

def argsortAsc (v : List RFloat) : List Nat :=
  List.insertionSort (fun i j => argsortLe v i j) (List.range v.length)

/-- `TFIDFRerankingModel.rank(query, ranked_formulas)`. -/
def rank (tfidfScores : List String → String → List ℚ) (tfidf_weight : ℚ)
    (query : String) (ranked_formulas : RankedFormulas) : RankedFormulas :=
  let scores := minMaxNormalize (tfidfScores ranked_formulas.formulas query)
  let new_scores := List.zipWith
    (fun o s => fAdd (fMul o (some (1 - tfidf_weight))) (fMul s (some tfidf_weight)))
    ranked_formulas.scores scores
  let ranked_indices := (argsortAsc new_scores).reverse
  { ids := ranked_indices.map (fun i => ranked_formulas.ids.getD i ""),
    formulas := ranked_indices.map (fun i => ranked_formulas.formulas.getD i ""),
    scores := ranked_indices.map (fun i => new_scores.getD i (some 0)) }

theorem minMaxNormalize_length (l : List ℚ) : (minMaxNormalize l).length = l.length := by
  cases l <;> simp [minMaxNormalize]

theorem map_getD_range {α : Type} (d : α) :
    ∀ l : List α, (List.range l.length).map (fun i => l.getD i d) = l := by
  intro l
  induction l with
  | nil => simp
  | cons x xs ih =>
    have h1 : List.range (x :: xs).length = 0 :: (List.range xs.length).map Nat.succ := by
      rw [List.length_cons, List.range_succ_eq_map]
    rw [h1, List.map_cons, List.map_map]
    have h2 : (List.range xs.length).map ((fun i => (x :: xs).getD i d) ∘ Nat.succ)
        = (List.range xs.length).map (fun i => xs.getD i d) := by
      apply List.map_congr_left
      intro i _
      simp [List.getD_cons_succ]
    rw [h2, ih]
    rfl

theorem argsortLe_trans (v : List RFloat) :
    ∀ a b c, argsortLe v a b → argsortLe v b c → argsortLe v a c := by
  intro a b c hab hbc
  unfold argsortLe at hab hbc ⊢
  rcases hva : v.getD a (some 0) with _ | qa <;>
    rcases hvb : v.getD b (some 0) with _ | qb <;>
      rcases hvc : v.getD c (some 0) with _ | qc <;>
        rw [hva, hvb] at hab <;> rw [hvb, hvc] at hbc <;>
          simp_all
  · omega
  · rcases hab with h | ⟨h1, h2⟩ <;> rcases hbc with g | ⟨g1, g2⟩
    · exact Or.inl (h.trans g)
    · exact Or.inl (g1 ▸ h)
    · exact Or.inl (h1 ▸ g)
    · exact Or.inr ⟨h1.trans g1, h2.trans g2⟩

theorem argsortLe_total (v : List RFloat) :
    ∀ a b, argsortLe v a b || argsortLe v b a := by
  intro a b
  unfold argsortLe
  rcases hva : v.getD a (some 0) with _ | qa <;>
    rcases hvb : v.getD b (some 0) with _ | qb <;> simp
  · exact Nat.le_total a b
  · rcases lt_trichotomy qa qb with h | h | h
    · exact Or.inl (Or.inl h)
    · rcases Nat.le_total a b with hab | hab
      · exact Or.inl (Or.inr ⟨h, hab⟩)
      · exact Or.inr (Or.inr ⟨h.symm, hab⟩)
    · exact Or.inr (Or.inl h)

theorem foldl_min_le_init : ∀ (l : List ℚ) (a : ℚ), l.foldl min a ≤ a := by
  intro l
  induction l with
  | nil => intro a; exact le_refl a
  | cons x xs ih => intro a; exact (ih (min a x)).trans (min_le_left a x)

theorem le_foldl_max_init : ∀ (l : List ℚ) (a : ℚ), a ≤ l.foldl max a := by
  intro l
  induction l with
  | nil => intro a; exact le_refl a
  | cons x xs ih => intro a; exact (le_max_left a x).trans (ih (max a x))

theorem foldl_min_le_all : ∀ (xs : List ℚ) (x y : ℚ), y ∈ x :: xs → xs.foldl min x ≤ y := by
  intro xs
  induction xs with
  | nil =>
    intro x y hy
    have : y = x := by simpa using hy
    simp [this]
  | cons z zs ih =>
    intro x y hy
    show zs.foldl min (min x z) ≤ y
    rcases List.mem_cons.mp hy with rfl | hy2
    · exact (foldl_min_le_init zs (min y z)).trans (min_le_left y z)
    · rcases List.mem_cons.mp hy2 with rfl | hy3
      · exact (foldl_min_le_init zs (min x y)).trans (min_le_right x y)
      · exact ih (min x z) y (List.mem_cons.mpr (Or.inr hy3))

theorem le_foldl_max_all : ∀ (xs : List ℚ) (x y : ℚ), y ∈ x :: xs → y ≤ xs.foldl max x := by
  intro xs
  induction xs with
  | nil =>
    intro x y hy
    have : y = x := by simpa using hy
    simp [this]
  | cons z zs ih =>
    intro x y hy
    show y ≤ zs.foldl max (max x z)
    rcases List.mem_cons.mp hy with rfl | hy2
    · exact (le_max_left y z).trans (le_foldl_max_init zs (max y z))
    · rcases List.mem_cons.mp hy2 with rfl | hy3
      · exact (le_max_right x y).trans (le_foldl_max_init zs (max x y))
      · exact ih (max x z) y (List.mem_cons.mpr (Or.inr hy3))

theorem foldl_min_lt_max (x : ℚ) (xs : List ℚ)
    (hnd : ∃ a ∈ x :: xs, ∃ b ∈ x :: xs, a ≠ b) :
    xs.foldl min x < xs.foldl max x := by
  obtain ⟨a, ha, b, hb, hab⟩ := hnd
  have h₁ := foldl_min_le_all xs x a ha
  have h₂ := foldl_min_le_all xs x b hb
  have h₃ := le_foldl_max_all xs x a ha
  have h₄ := le_foldl_max_all xs x b hb
  rcases lt_or_gt_of_ne hab with h | h
  · exact lt_of_le_of_lt h₁ (lt_of_lt_of_le h h₄)
  · exact lt_of_le_of_lt h₂ (lt_of_lt_of_le h h₃)

theorem minMaxNormalize_all_some (l : List ℚ)
    (hnd : ∃ a ∈ l, ∃ b ∈ l, a ≠ b) :
    ∀ y ∈ minMaxNormalize l, ∃ q, y = some q := by
  cases l with
  | nil =>
    obtain ⟨a, ha, -⟩ := hnd
    exact absurd ha (by simp)
  | cons x xs =>
    intro y hy
    simp only [minMaxNormalize, List.mem_map] at hy
    obtain ⟨v, _, rfl⟩ := hy
    have hlt := foldl_min_lt_max x xs hnd
    refine ⟨(v - xs.foldl min x) / (xs.foldl max x - xs.foldl min x), ?_⟩
    simp only [fDiv, if_neg (sub_ne_zero.mpr (ne_of_gt hlt))]

theorem mem_zipWith {α β γ : Type} (f : α → β → γ) :
    ∀ (l₁ : List α) (l₂ : List β) (x : γ), x ∈ List.zipWith f l₁ l₂ →
      ∃ a ∈ l₁, ∃ b ∈ l₂, x = f a b := by
  intro l₁
  induction l₁ with
  | nil => intro l₂ x hx; exact absurd hx (by simp)
  | cons a as ih =>
    intro l₂ x hx
    cases l₂ with
    | nil => exact absurd hx (by simp)
    | cons b bs =>
      rw [List.zipWith_cons_cons] at hx
      rcases List.mem_cons.mp hx with rfl | hx
      · exact ⟨a, by simp, b, by simp, rfl⟩
      · obtain ⟨a₂, ha₂, b₂, hb₂, rfl⟩ := ih bs x hx
        exact ⟨a₂, by simp [ha₂], b₂, by simp [hb₂], rfl⟩

theorem getD_isSome (v : List RFloat) (hall : ∀ y ∈ v, ∃ q, y = some q) (i : Nat) :
    ∃ q, v.getD i (some 0) = some q := by
  by_cases h : i < v.length
  · rw [List.getD_eq_getElem v (some 0) h]
    exact hall v[i] (List.getElem_mem h)
  · rw [List.getD_eq_default v (some 0) (Nat.le_of_not_lt h)]
    exact ⟨0, rfl⟩

/-- Claim C8 (amended): on equal-length parallel arrays with real
similarity scores, and candidate lexical scores that are not all equal,
the reranker returns a `RankedFormulas` whose ids are a permutation of
the input ids, whose three arrays keep the input length and are permuted
in lockstep by one index permutation, and whose scores are sorted
non-increasing.  When every candidate has the same raw lexical score the
min-max normalization computes `0/0 = NaN`, every blended score is NaN,
and for two or more candidates the returned scores are not sorted
non-increasing under IEEE comparison. -/
theorem rank_permutes_and_sorts (tfidfScores : List String → String → List ℚ)
    (w : ℚ) (query : String) (rf : RankedFormulas)
    (hf : rf.formulas.length = rf.ids.length)
    (hs : rf.scores.length = rf.ids.length)
    (hlex : (tfidfScores rf.formulas query).length = rf.formulas.length)
    (hreal : ∀ s ∈ rf.scores, s.isSome = true)
    (hnd : ∃ a ∈ tfidfScores rf.formulas query,
      ∃ b ∈ tfidfScores rf.formulas query, a ≠ b) :
    ((rank tfidfScores w query rf).ids).Perm rf.ids ∧
    (rank tfidfScores w query rf).ids.length = rf.ids.length ∧
    (rank tfidfScores w query rf).formulas.length = rf.ids.length ∧
    (rank tfidfScores w query rf).scores.length = rf.ids.length ∧
    List.Sorted scoreGe (rank tfidfScores w query rf).scores ∧
    ∃ π : List Nat, π.Perm (List.range rf.ids.length) ∧
      (rank tfidfScores w query rf).ids = π.map (fun i => rf.ids.getD i "") ∧
      (rank tfidfScores w query rf).formulas = π.map (fun i => rf.formulas.getD i "") ∧
      (rank tfidfScores w query rf).scores = π.map (fun i =>
        (List.zipWith (fun o s => fAdd (fMul o (some (1 - w))) (fMul s (some w)))
          rf.scores (minMaxNormalize (tfidfScores rf.formulas query))).getD i (some 0)) := by
  set ns := List.zipWith (fun o s => fAdd (fMul o (some (1 - w))) (fMul s (some w)))
    rf.scores (minMaxNormalize (tfidfScores rf.formulas query)) with hns
  have hnslen : ns.length = rf.ids.length := by
    rw [hns, List.length_zipWith, minMaxNormalize_length, hlex, hf, hs]
    exact Nat.min_self _
  have hallns : ∀ y ∈ ns, ∃ q, y = some q := by
    intro y hy
    rw [hns] at hy
    obtain ⟨o, ho, sv, hsv, rfl⟩ := mem_zipWith _ rf.scores _ y hy
    obtain ⟨qs, rfl⟩ := minMaxNormalize_all_some _ hnd sv hsv
    obtain ⟨qo, hqo⟩ := Option.isSome_iff_exists.mp (hreal o ho)
    subst hqo
    exact ⟨qo * (1 - w) + qs * w, rfl⟩
  set π := (argsortAsc ns).reverse with hπdef
  have hπ : π.Perm (List.range rf.ids.length) := by
    rw [hπdef]
    have h₁ : (argsortAsc ns).Perm (List.range ns.length) :=
      List.perm_insertionSort (fun i j => argsortLe ns i j) (List.range ns.length)
    rw [hnslen] at h₁
    exact (List.reverse_perm _).trans h₁
  have hπlen : π.length = rf.ids.length := by
    rw [hπ.length_eq, List.length_range]
  have hidmap : (List.range rf.ids.length).map (fun i => rf.ids.getD i "") = rf.ids :=
    map_getD_range "" rf.ids
  refine ⟨?_, ?_, ?_, ?_, ?_, π, hπ, rfl, rfl, rfl⟩
  · have h1 : (rank tfidfScores w query rf).ids = π.map (fun i => rf.ids.getD i "") := rfl
    rw [h1]
    have h2 := hπ.map (fun i => rf.ids.getD i "")
    rwa [hidmap] at h2
  · show (π.map _).length = _
    rw [List.length_map, hπlen]
  · show (π.map _).length = _
    rw [List.length_map, hπlen]
  · show (π.map _).length = _
    rw [List.length_map, hπlen]
  · show List.Pairwise scoreGe (π.map (fun i => ns.getD i (some 0)))
    rw [List.pairwise_map]
    haveI : IsTrans Nat (fun i j => argsortLe ns i j = true) := ⟨argsortLe_trans ns⟩
    haveI : IsTotal Nat (fun i j => argsortLe ns i j = true) :=
      ⟨fun a b => Bool.or_eq_true _ _ |>.mp (argsortLe_total ns a b)⟩
    have hsorted : List.Pairwise (fun a b => argsortLe ns a b = true) (argsortAsc ns) :=
      List.sorted_insertionSort (fun i j => argsortLe ns i j) (List.range ns.length)
    have hrev : List.Pairwise (fun a b => argsortLe ns b a = true) π := by
      rw [hπdef, List.pairwise_reverse]
      exact hsorted
    refine hrev.imp ?_
    intro a b hba
    obtain ⟨qa, hqa⟩ := getD_isSome ns hallns a
    obtain ⟨qb, hqb⟩ := getD_isSome ns hallns b
    unfold argsortLe at hba
    rw [hqa, hqb] at hba
    simp only [Bool.or_eq_true, Bool.and_eq_true, decide_eq_true_eq] at hba
    rw [hqa, hqb]
    show qb ≤ qa
    rcases hba with h | ⟨h, -⟩
    · exact le_of_lt h
    · exact le_of_eq h

/-- Claim C8 counterexample: when every candidate has the same raw
lexical score (here both 1, as for a query sharing no tree nodes with
any candidate), the min-max normalization computes `0/0 = NaN` for every
candidate, every blended score is NaN, and the returned scores of the
equal-length two-candidate input are not sorted non-increasing, because
IEEE comparisons involving NaN are false. -/
theorem rank_nan_unsorted :
    (rank (fun _ _ => [1, 1]) (1/2) "q"
      ⟨["1", "2"], ["f", "g"], [some (9/10), some (1/2)]⟩).scores = [none, none] ∧
    ¬ List.Sorted scoreGe
      (rank (fun _ _ => [1, 1]) (1/2) "q"
        ⟨["1", "2"], ["f", "g"], [some (9/10), some (1/2)]⟩).scores ∧
    (["1", "2"] : List String).length = 2 ∧
    (["f", "g"] : List String).length = 2 ∧
    ([some (9/10), some (1/2)] : List RFloat).length = 2 := by
  have hscores : (rank (fun _ _ => [1, 1]) (1/2) "q"
      ⟨["1", "2"], ["f", "g"], [some (9/10), some (1/2)]⟩).scores = [none, none] := by
    simp [rank, minMaxNormalize, fDiv, fAdd, fMul, argsortAsc, argsortLe,
      List.insertionSort, List.orderedInsert]
  refine ⟨hscores, ?_, rfl, rfl, rfl⟩
  rw [hscores]
  intro hsort
  exact (List.pairwise_cons.mp hsort).1 none (by simp)

/-- Claim C8 witness: a concrete two-candidate rerank with distinct
lexical scores keeps the id multiset. -/
theorem rank_permutes_and_sorts_witness :
    ((rank (fun _ _ => [0, 1]) (1/2) "q"
      ⟨["1", "2"], ["f", "g"], [some (9/10), some (1/2)]⟩).ids).Perm ["1", "2"] :=
  (rank_permutes_and_sorts (fun _ _ => [0, 1]) (1/2) "q"
    ⟨["1", "2"], ["f", "g"], [some (9/10), some (1/2)]⟩
    (by decide) (by decide) (by decide) (by decide) (by decide)).1

/-! ## Formula annotation rollback

Embedding of `FormulaAnnotationService.add_formula_annotation` and
`FormulaAnnotationService._rollback_annotation_fragment`
(`src/mathematicon/backend/services/formula_annotation_service.py`,
lines 51-61 and 73-75), together with the two store collaborators it
orchestrates (`AnnotationRepository.add_annot_fragment`,
`AnnotationRepository.delete_annot_fragment_by_id`,
`FormulaEmbeddingRepository.add_formula`).

The relational store is the `annot_fragment` table: rows
`(id, sent_id, char_start, char_end)` with an autoincrement id (starting
at 1, so the Python `if not id` reuse test behaves as an is-None test);
the embedding store is the chroma collection keyed by fragment id with
upsert semantics.  The service adds the fragment, then indexes the
formula; when indexing raises, the exception is caught, the fragment just
created is deleted by id, and the error is only logged. `embedOk` is the
outcome of the embedding collaborator call. -/

structure AnnotFragRow where
  id : Nat
  sent_id : Nat
  char_start : Nat
  char_end : Nat
deriving Repr, DecidableEq

structure Stores where
  relRows : List AnnotFragRow
  nextId : Nat
  embRows : List (Nat × String)
deriving Repr, DecidableEq

/-- `AnnotationRepository.get_annot_frag_id`. -/
def get_annot_frag_id (st : Stores) (sentId cs ce : Nat) : Option Nat :=
  (st.relRows.find? (fun r =>
    r.sent_id == sentId && r.char_start == cs && r.char_end == ce)).map (fun r => r.id)

/-- `AnnotationRepository.add_annot_fragment`: reuse the id of an existing
fragment with the same `(sent_id, char_start, char_end)` key, otherwise
insert a fresh row; returns the updated store and the fragment id
assigned to `annot_fragment.annotation_id`. -/
def add_annot_fragment (st : Stores) (sentId cs ce : Nat) : Stores × Nat :=
  match get_annot_frag_id st sentId cs ce with
  | some fid => (st, fid)
  | none =>
    ({ relRows := st.relRows ++ [⟨st.nextId, sentId, cs, ce⟩],
       nextId := st.nextId + 1,
       embRows := st.embRows }, st.nextId)

/-- `FormulaEmbeddingRepository.add_formula`: `collection.upsert` keyed by
the fragment id. -/
def emb_add_formula (st : Stores) (fid : Nat) (tex : String) : Stores :=
  if st.embRows.any (fun e => e.1 == fid) then
    { st with embRows := st.embRows.map (fun e => if e.1 == fid then (fid, tex) else e) }
  else
    { st with embRows := st.embRows ++ [(fid, tex)] }

/-- `AnnotationRepository.delete_annot_fragment_by_id`. -/
def delete_annot_fragment_by_id (st : Stores) (fid : Nat) : Stores :=
  { st with relRows := st.relRows.filter (fun r => !(r.id == fid)) }

/-- `FormulaAnnotationService.add_formula_annotation` for a fragment with
key `(sentId, cs, ce)` carrying formula `tex`: create the relational
fragment, then index into the embedding store; on an indexing error
(`embedOk = false`) run `_rollback_annotation_fragment`, which deletes
the just-created fragment by id (the exception itself is swallowed and
logged). -/
def addFormulaAnnot (embedOk : Bool) (st : Stores) (sentId cs ce : Nat)
    (tex : String) : Stores :=
  let r := add_annot_fragment st sentId cs ce
  if embedOk then emb_add_formula r.1 r.2 tex
  else delete_annot_fragment_by_id r.1 r.2

/-- Claim C9: for a fresh fragment, when the embedding insertion fails the
compensating delete restores the relational store exactly and leaves the
embedding store untouched; when it succeeds both stores contain the new
fragment id; in both cases the two stores agree on the new id (either
both contain the formula annotation or neither does). -/
theorem addFormulaAnnot_compensates (st : Stores) (sentId cs ce : Nat) (tex : String)
    (hfresh : ∀ r ∈ st.relRows, r.id < st.nextId)
    (hembfresh : ∀ e ∈ st.embRows, e.1 < st.nextId)
    (hnew : get_annot_frag_id st sentId cs ce = none) :
    (addFormulaAnnot false st sentId cs ce tex).relRows = st.relRows ∧
    (addFormulaAnnot false st sentId cs ce tex).embRows = st.embRows ∧
    ((∃ r ∈ (addFormulaAnnot true st sentId cs ce tex).relRows, r.id = st.nextId) ∧
      ∃ e ∈ (addFormulaAnnot true st sentId cs ce tex).embRows, e.1 = st.nextId) ∧
    ∀ embedOk : Bool,
      ((∃ r ∈ (addFormulaAnnot embedOk st sentId cs ce tex).relRows, r.id = st.nextId) ↔
        ∃ e ∈ (addFormulaAnnot embedOk st sentId cs ce tex).embRows, e.1 = st.nextId) := by
  have hrel : (addFormulaAnnot false st sentId cs ce tex).relRows = st.relRows := by
    simp only [addFormulaAnnot, add_annot_fragment, hnew, if_neg Bool.false_ne_true,
      delete_annot_fragment_by_id]
    rw [List.filter_append]
    have h₁ : st.relRows.filter (fun r => !(r.id == st.nextId)) = st.relRows := by
      apply List.filter_eq_self.mpr
      intro r hr
      simp only [Bool.not_eq_eq_eq_not, Bool.not_true, beq_eq_false_iff_ne]
      exact Nat.ne_of_lt (hfresh r hr)
    have h₂ : List.filter (fun r => !(r.id == st.nextId))
        [(⟨st.nextId, sentId, cs, ce⟩ : AnnotFragRow)] = [] := by
      simp
    rw [h₁, h₂, List.append_nil]
  have hemb : (addFormulaAnnot false st sentId cs ce tex).embRows = st.embRows := by
    simp only [addFormulaAnnot, add_annot_fragment, hnew, if_neg Bool.false_ne_true,
      delete_annot_fragment_by_id]
  have hoknotin : st.embRows.any (fun e => e.1 == st.nextId) = false := by
    rw [List.any_eq_false]
    intro e he
    simp only [beq_iff_eq]
    exact Nat.ne_of_lt (hembfresh e he)
  have hokrel : ∃ r ∈ (addFormulaAnnot true st sentId cs ce tex).relRows, r.id = st.nextId := by
    refine ⟨⟨st.nextId, sentId, cs, ce⟩, ?_, rfl⟩
    simp [addFormulaAnnot, add_annot_fragment, hnew, emb_add_formula, hoknotin]
  have hokemb : ∃ e ∈ (addFormulaAnnot true st sentId cs ce tex).embRows, e.1 = st.nextId := by
    refine ⟨(st.nextId, tex), ?_, rfl⟩
    simp [addFormulaAnnot, add_annot_fragment, hnew, emb_add_formula, hoknotin]
  refine ⟨hrel, hemb, ⟨hokrel, hokemb⟩, ?_⟩
  intro embedOk
  cases embedOk with
  | false =>
    rw [hrel, hemb]
    constructor
    · rintro ⟨r, hr, hid⟩
      exact absurd hid (Nat.ne_of_lt (hfresh r hr))
    · rintro ⟨e, he, hid⟩
      exact absurd hid (Nat.ne_of_lt (hembfresh e he))
  | true => exact iff_of_true hokrel hokemb

/-- Claim C9 witness: adding a fragment to empty stores with a failing
embedding insertion leaves the relational store empty. -/
theorem addFormulaAnnot_compensates_witness :
    (addFormulaAnnot false ⟨[], 1, []⟩ 5 0 4 "x^2").relRows = [] :=
  (addFormulaAnnot_compensates ⟨[], 1, []⟩ 5 0 4 "x^2"
    (by simp) (by simp) (by decide)).1

end Mathematicon
